import Mathlib

/-!
Verification of the apachelog core: a shallow embedding of
`apachelog/parser.py` (format compiler, record parser, alias table) and
`apachelog/date.py` (`parse_date`), with theorems settling the frozen
claims about the natural-language specification.

Strings are modelled as `List Char`.  The Python regular expressions the
compiler emits are fixed constants, so the line matcher is embedded as a
small backtracking matcher specialised to the five subexpression shapes
the compiler can produce, with Python's leftmost/greedy/lazy priority
order reproduced by enumerating each element's candidate captures in
priority order.
-/

namespace Apachelog

/-- Python `str` whitespace (`str.strip`, `\S`): space, tab, newline,
carriage return, vertical tab, form feed. -/
def isPySpace (c : Char) : Bool :=
  c = ' ' || c = '\t' || c = '\n' || c = '\r' || c = '\x0b' || c = '\x0c'

/-- Python `line.strip()`: remove leading and trailing whitespace. -/
def pyStrip (s : List Char) : List Char :=
  ((s.dropWhile isPySpace).reverse.dropWhile isPySpace).reverse

/-- Python `re.sub('[ \t]+', ' ', s)`: collapse every maximal run of
spaces and tabs into a single space.  The flag records whether the
previous character belonged to a run. -/
def normWsAux : Bool → List Char → List Char
  | _, [] => []
  | prevRun, c :: rest =>
    if c = ' ' || c = '\t' then
      if prevRun then normWsAux true rest
      else ' ' :: normWsAux true rest
    else c :: normWsAux false rest

/-- Whitespace-run normalisation applied by `_parse_format` after `strip`. -/
def normWs (s : List Char) : List Char := normWsAux false s

/-- Python `s.split(' ')`: split on every single space, keeping empty
segments (so the result is never the empty list). -/
def splitOnSpace : List Char → List (List Char)
  | [] => [[]]
  | c :: rest =>
    if c = ' ' then [] :: splitOnSpace rest
    else
      match splitOnSpace rest with
      | t :: ts => (c :: t) :: ts
      | [] => [[c]]

/-- The last `n` characters of `l` (Python `l[-n:]` for nonempty `l`). -/
def lastN (n : Nat) (l : List Char) : List Char := l.drop (l.length - n)

/-- Python `re.compile(r'^\\"').search(element)`: the token begins with a
backslash-quote marker (`^` only matches at the start of the string). -/
def startsEsc (t : List Char) : Bool :=
  match t with
  | '\\' :: '"' :: _ => true
  | _ => false

/-- Python `re.sub(r'\\"$', '', element)`: remove a trailing
backslash-quote marker.  `$` also matches just before a final newline,
which the second branch reproduces. -/
def rstripEsc (t : List Char) : List Char :=
  if lastN 2 t = ['\\', '"'] then t.dropLast.dropLast
  else if lastN 3 t = ['\\', '"', '\n'] then t.dropLast.dropLast.dropLast ++ ['\n']
  else t

/-- The quote-stripping step of `_parse_format`: when the token begins
with `\"`, the leading marker is removed and then a trailing marker is
removed if present; otherwise the token is untouched. -/
def processToken (t : List Char) : List Char :=
  if startsEsc t then rstripEsc (t.drop 2) else t

/-- ASCII lower-casing, as used by `re.I` on Python 2 byte strings. -/
def asciiLower (c : Char) : Char :=
  if 'A' ≤ c ∧ c ≤ 'Z' then Char.ofNat (c.toNat + 32) else c

/-- `headMatches needle hay`: `needle` is an initial segment of `hay`. -/
def headMatches : List Char → List Char → Bool
  | [], _ => true
  | _ :: _, [] => false
  | a :: as, b :: bs => a == b && headMatches as bs

/-- `occursIn needle hay`: `needle` occurs contiguously in `hay`. -/
def occursIn (needle : List Char) : List Char → Bool
  | [] => headMatches needle []
  | c :: rest => headMatches needle (c :: rest) || occursIn needle rest

/-- Python `re.compile('Referer|User-Agent', re.I).search(element)`:
case-insensitive substring test. -/
def containsRefUA (t : List Char) : Bool :=
  let lt := t.map asciiLower
  occursIn ("referer".toList) lt || occursIn ("user-agent".toList) lt

/-- Python `re.compile('^%.*t$').search(element)`: the token (with one
final newline tolerated by `$`) starts with `%`, ends with `t`, and `.`
never matches a newline in between. -/
def timeMatch (t : List Char) : Bool :=
  let u := if t.getLastD ' ' = '\n' then t.dropLast else t
  match u with
  | '%' :: rest =>
    !rest.isEmpty && rest.getLastD ' ' = 't' && rest.dropLast.all (fun c => c ≠ '\n')
  | _ => false

/-- The five subexpression shapes `_parse_format` can emit for a token. -/
inductive Elem where
  | quotedSpecial
  | quotedNormal
  | timeBracket
  | urlPath
  | plain
deriving DecidableEq

/-- Source string `r'\"([^"\\]*(?:\\.[^"\\]*)*)\"'` (quoted `%r`,
Referer, User-Agent). -/
def qsPat : List Char := "\\\"([^\"\\\\]*(?:\\\\.[^\"\\\\]*)*)\\\"".toList

/-- Source string `r'\"([^\"]*)\"'` (any other quoted token). -/
def qnPat : List Char := "\\\"([^\\\"]*)\\\"".toList

/-- Source string `r'(\[[^\]]+\])'` (unquoted time directive). -/
def tbPat : List Char := "(\\[[^\\]]+\\])".toList

/-- Source string `'(.+?)'` (unquoted `%U`). -/
def upPat : List Char := "(.+?)".toList

/-- Source string `'(\S*)'` (the default subexpression). -/
def plPat : List Char := "(\\S*)".toList

/-- The literal subpattern text for each element shape. -/
def elemPattern : Elem → List Char
  | .quotedSpecial => qsPat
  | .quotedNormal => qnPat
  | .timeBracket => tbPat
  | .urlPath => upPat
  | .plain => plPat

/-- The element shape `_parse_format` chooses for one raw token:
`hasquotes` is tested on the raw token, everything else on the stripped
token, with the `if`/`elif` chain of the source. -/
def tokenElem (t : List Char) : Elem :=
  let el := processToken t
  if startsEsc t then
    if el = ['%', 'r'] ∨ containsRefUA el then Elem.quotedSpecial
    else Elem.quotedNormal
  else if timeMatch el then Elem.timeBracket
  else if el = ['%', 'U'] then Elem.urlPath
  else Elem.plain

/-- First-match association-list lookup (Python `dict[key]` as `Option`). -/
def assocGet {α β : Type} [DecidableEq α] : List (α × β) → α → Option β
  | [], _ => none
  | (k, v) :: rest, a => if k = a then some v else assocGet rest a

/-- The `parser.format_to_name` directive table, in source order. -/
def format_to_name : List (List Char × List Char) := [
  ("%a".toList, "remote_ip".toList),
  ("%A".toList, "local_ip".toList),
  ("%B".toList, "response_bytes".toList),
  ("%b".toList, "response_bytes_clf".toList),
  ("%{}C".toList, "cookie".toList),
  ("%D".toList, "response_time_us".toList),
  ("%{}e".toList, "env".toList),
  ("%f".toList, "filename".toList),
  ("%h".toList, "remote_host".toList),
  ("%H".toList, "request_protocol".toList),
  ("%{}i".toList, "header".toList),
  ("%k".toList, "keepalive_num".toList),
  ("%l".toList, "remote_logname".toList),
  ("%m".toList, "request_method".toList),
  ("%{}n".toList, "note".toList),
  ("%{}o".toList, "reply_header".toList),
  ("%p".toList, "server_port".toList),
  ("%{}p".toList, "port".toList),
  ("%P".toList, "process_id".toList),
  ("%{}P".toList, "pid".toList),
  ("%q".toList, "query_string".toList),
  ("%r".toList, "first_line".toList),
  ("%R".toList, "response_handler".toList),
  ("%s".toList, "status".toList),
  ("%>s".toList, "last_status".toList),
  ("%t".toList, "time".toList),
  ("%T".toList, "response_time_sec".toList),
  ("%u".toList, "remote_user".toList),
  ("%U".toList, "url_path".toList),
  ("%v".toList, "canonical_server_name".toList),
  ("%V".toList, "server_name_config".toList),
  ("%X".toList, "completed_connection_status".toList),
  ("%I".toList, "bytes_received".toList),
  ("%O".toList, "bytes_sent".toList)]

/-- `parser.alias`: bracketed tokens `%{X}c` are reduced to the generic
key `%{}c` with modifier `X`; hyphens in the modifier become underscores
unless the generic key is `%{}t`; then the (possibly rewritten) key is
looked up, a miss returning the rewritten key itself. -/
def aliasChars (name : List Char) : List Char :=
  if name.take 2 = ['%', '{'] then
    let cf0 := '_' :: ((name.drop 2).take (name.length - 4))
    let key := ['%', '{', '}'] ++ lastN 1 name
    let cf :=
      if key = ['%', '{', '}', 't'] then cf0
      else cf0.map (fun ch => if ch = '-' then '_' else ch)
    match assocGet format_to_name key with
    | some base => base ++ cf
    | none => key
  else
    match assocGet format_to_name name with
    | some base => base
    | none => name

/-- The whitespace-delimited tokens of a format string, after the
`strip` and whitespace-run normalisation of `_parse_format`. -/
def tokensOf (fmt : List Char) : List (List Char) :=
  splitOnSpace (normWs (pyStrip fmt))

/-- The element shapes of a compiled format, in token order. -/
def elemsOf (fmt : List Char) : List Elem :=
  (tokensOf fmt).map tokenElem

/-- `parser._names`: one name per token — the stripped token itself, or
its alias in friendly-name mode. -/
def namesOf (fmt : List Char) (friendly : Bool) : List (List Char) :=
  (tokensOf fmt).map (fun t =>
    let el := processToken t
    if friendly then aliasChars el else el)

/-- `' '.join(subpatterns)`. -/
def joinSpace : List (List Char) → List Char
  | [] => []
  | [p] => p
  | p :: ps => p ++ ' ' :: joinSpace ps

/-- `parser._pattern`: `'^' + ' '.join(subpatterns) + '$'`. -/
def patternOf (fmt : List Char) : List Char :=
  '^' :: joinSpace ((elemsOf fmt).map elemPattern) ++ ['$']

/-- Candidate captures of `(\S*)` against `s`, as (captured, rest) pairs
in Python's greedy priority order (longest first). -/
def plainCands (s : List Char) : List (List Char × List Char) :=
  let run := s.takeWhile (fun c => !isPySpace c)
  let after := s.dropWhile (fun c => !isPySpace c)
  (List.range (run.length + 1)).map (fun i =>
    let k := run.length - i
    (run.take k, run.drop k ++ after))

/-- Candidate captures of `(.+?)` in lazy priority order (shortest
first); `.` does not match a newline. -/
def urlCands (s : List Char) : List (List Char × List Char) :=
  let run := s.takeWhile (fun c => c ≠ '\n')
  let after := s.dropWhile (fun c => c ≠ '\n')
  (List.range run.length).map (fun i =>
    let k := i + 1
    (run.take k, run.drop k ++ after))

/-- Candidate capture of `(\[[^\]]+\])`: deterministic, because the
greedy class run excludes `]` so no shorter run can be followed by the
literal `]`. -/
def timeCands (s : List Char) : List (List Char × List Char) :=
  match s with
  | '[' :: t =>
    let run := t.takeWhile (fun c => c ≠ ']')
    match t.dropWhile (fun c => c ≠ ']') with
    | ']' :: r => if run.isEmpty then [] else [('[' :: (run ++ [']']), r)]
    | _ => []
  | _ => []

/-- Candidate capture of `\"([^\"]*)\"`: deterministic, the class run
excludes the closing quote. -/
def qnCands (s : List Char) : List (List Char × List Char) :=
  match s with
  | '"' :: t =>
    match t.dropWhile (fun c => c ≠ '"') with
    | '"' :: r => [(t.takeWhile (fun c => c ≠ '"'), r)]
    | _ => []
  | _ => []

/-- Body of `\"([^"\\]*(?:\\.[^"\\]*)*)\"` after the opening quote:
consume class characters, consume backslash-escape pairs (the `.` of
`\\.` matches anything but a newline), stop at an unescaped quote.
Every alternative of the regex is forced, so the scan is deterministic. -/
def qsBody : List Char → Option (List Char × List Char)
  | [] => none
  | c :: rest =>
    if c = '"' then some ([], rest)
    else if c = '\\' then
      match rest with
      | [] => none
      | d :: rest2 =>
        if d = '\n' then none
        else (qsBody rest2).map (fun g => (c :: d :: g.1, g.2))
    else (qsBody rest).map (fun g => (c :: g.1, g.2))

/-- Candidate capture of the Referer/User-Agent/`%r` subexpression. -/
def qsCands (s : List Char) : List (List Char × List Char) :=
  match s with
  | '"' :: t =>
    match qsBody t with
    | some g => [g]
    | none => []
  | _ => []

/-- Candidate (capture, rest) pairs for one element, in Python's
backtracking priority order. -/
def candidates : Elem → List Char → List (List Char × List Char)
  | .quotedSpecial, s => qsCands s
  | .quotedNormal, s => qnCands s
  | .timeBracket, s => timeCands s
  | .urlPath, s => urlCands s
  | .plain, s => plainCands s

/-- Return the first `some` produced by `f` along the list. -/
def firstSome {α β : Type} : List α → (α → Option β) → Option β
  | [], _ => none
  | a :: as, f =>
    match f a with
    | some b => some b
    | none => firstSome as f

/-- Fuel-indexed matcher for `^ e₁ ' ' e₂ ' ' … ' ' eₙ $`: try each
candidate of the head element in priority order; the last element must
consume the rest of the line, earlier ones must be followed by a literal
space.  The fuel is one more than the element-list length, so it never
runs out. -/
def matchFuel : Nat → List Elem → List Char → Option (List (List Char))
  | _, [], s => if s.isEmpty then some [] else none
  | 0, _ :: _, _ => none
  | fuel + 1, e :: es, s =>
    firstSome (candidates e s) (fun p =>
      match es with
      | [] => if p.2.isEmpty then some [p.1] else none
      | _ :: _ =>
        match p.2 with
        | c :: r =>
          if c = ' ' then (matchFuel fuel es r).map (fun gs => p.1 :: gs) else none
        | [] => none)

/-- Anchored match of the compiled element list against a whole line,
returning the captured groups in order. -/
def matchElems (es : List Elem) (s : List Char) : Option (List (List Char)) :=
  matchFuel (es.length + 1) es s

/-- Python dict assignment `data[k] = v`: overwrite the first entry with
this key, or append. -/
def recSet : List (List Char × List Char) → List Char → List Char → List (List Char × List Char)
  | [], k, v => [(k, v)]
  | (k', v') :: rest, k, v =>
    if k' = k then (k', v) :: rest else (k', v') :: recSet rest k v

/-- The record built by inserting `(name, group)` pairs in order. -/
def buildRecord (pairs : List (List Char × List Char)) : List (List Char × List Char) :=
  pairs.foldl (fun r kv => recSet r kv.1 kv.2) []

/-- Record lookup (Python `data[k]`). -/
def recGet : List (List Char × List Char) → List Char → Option (List Char)
  | [], _ => none
  | (k', v) :: rest, k => if k' = k then some v else recGet rest k

/-- Result of `parser.parse`: either the record, or the
`ApacheLogParserError` whose message carries the stripped line and the
compiled pattern. -/
inductive ParseResult where
  | ok (record : List (List Char × List Char))
  | err (line : List Char) (pat : List Char)
deriving DecidableEq

/-- `parser.parse`: strip the line, match it against the compiled
pattern, zip names with groups into a dict, or fail with the line and
the pattern. -/
def parse (fmt : List Char) (friendly : Bool) (line : List Char) : ParseResult :=
  let l := pyStrip line
  match matchElems (elemsOf fmt) l with
  | some gs => ParseResult.ok (buildRecord ((namesOf fmt friendly).zip gs))
  | none => ParseResult.err l (patternOf fmt)

/-- `date.MONTHS`. -/
def MONTHS : List (List Char × List Char) := [
  ("Jan".toList, "01".toList),
  ("Feb".toList, "02".toList),
  ("Mar".toList, "03".toList),
  ("Apr".toList, "04".toList),
  ("May".toList, "05".toList),
  ("Jun".toList, "06".toList),
  ("Jul".toList, "07".toList),
  ("Aug".toList, "08".toList),
  ("Sep".toList, "09".toList),
  ("Oct".toList, "10".toList),
  ("Nov".toList, "11".toList),
  ("Dec".toList, "12".toList)]

/-- A square-bracket character, for Python `date.strip('[]')`. -/
def isBracketChar (c : Char) : Bool := c = '[' || c = ']'

/-- Python `date.strip('[]')`. -/
def stripBrackets (s : List Char) : List Char :=
  ((s.dropWhile isBracketChar).reverse.dropWhile isBracketChar).reverse

/-- Python slice `s[a:b]` for `a ≤ b`. -/
def slice (s : List Char) (a b : Nat) : List Char := (s.drop a).take (b - a)

/-- `date.parse_date`: strip brackets, rearrange the fixed-offset slices
`[7:11] [3:6]→month [0:2] [12:14] [15:17] [18:20]` and return `[21:]`
verbatim; a month-table miss is Python's `KeyError`. -/
def parse_date (date : List Char) : Option (List Char × List Char) :=
  let d := stripBrackets date
  match assocGet MONTHS (slice d 3 6) with
  | none => none
  | some m =>
    some (slice d 7 11 ++ m ++ slice d 0 2 ++ slice d 12 14 ++
      slice d 15 17 ++ slice d 18 20, d.drop 21)

/-- The spec's subexpression precedence, written as the claim words it:
first match wins among (1) quoted and `%r`/Referer/User-Agent, (2) quoted
otherwise, (3) unquoted time directive, (4) unquoted `%U`, (5) default. -/
def specSubexprChoice (token : List Char) : List Char :=
  let quoted := startsEsc token
  let el := processToken token
  if quoted = true ∧ (el = ['%', 'r'] ∨ containsRefUA el = true) then qsPat
  else if quoted = true then qnPat
  else if quoted = false ∧ timeMatch el = true then tbPat
  else if quoted = false ∧ el = ['%', 'U'] then upPat
  else plPat

/-- The key `alias` actually looks up: the generic form `%{}c` for a
bracketed token, the token itself otherwise. -/
def genericKey (name : List Char) : List Char :=
  if name.take 2 = ['%', '{'] then ['%', '{', '}'] ++ lastN 1 name else name

/-- Number of capturing groups in a pattern string: occurrences of `(`
not followed by `?`. -/
def capCount : List Char → Nat
  | [] => 0
  | c :: rest => (if c = '(' ∧ rest.head? ≠ some '?' then 1 else 0) + capCount rest

/-- The message of the group-limit `AssertionError` raised by Python 2's
`sre_compile.compile` when a pattern holds 100 or more capturing groups
(`sre_parse` counts groups from 1 and the compiler rejects
`p.pattern.groups > 100`). -/
def groupLimitDiag : List Char :=
  "sorry, but this version only supports 100 named groups".toList

/-- Result of `parser.__init__` (the final `try` block of
`_parse_format`): either the compiled names and pattern, or the
`ApacheLogParserError(e)` raised on a `re.compile` failure — whose
payload is the engine exception `e` alone; the offending pattern is not
part of it. -/
inductive CompileResult where
  | ok (names : List (List Char)) (pat : List Char)
  | err (diagnostic : List Char)
deriving DecidableEq

/-- `parser.__init__`: build names and pattern, then `re.compile` the
assembled pattern.  The pattern is a space-join of five fixed,
individually valid subexpressions, so the only way Python 2's
`re.compile` can fail on it is the sre group limit: it raises the
group-limit `AssertionError` exactly when the pattern holds 100 or more
capturing groups.  That exception is caught and the constructor raises
`ApacheLogParserError(e)`, carrying only the engine diagnostic. -/
def parserInit (fmt : List Char) (friendly : Bool) : CompileResult :=
  if 100 ≤ capCount (patternOf fmt) then CompileResult.err groupLimitDiag
  else CompileResult.ok (namesOf fmt friendly) (patternOf fmt)

theorem length_dropWhile_le' (p : Char → Bool) (l : List Char) :
    (l.dropWhile p).length ≤ l.length := by
  induction l with
  | nil => simp
  | cons c rest ih =>
    rw [List.dropWhile_cons]
    by_cases h : p c
    · simp only [h, if_true]
      exact Nat.le_succ_of_le ih
    · simp [h]

theorem dropWhile_fix_head {p : Char → Bool} {c : Char} {l : List Char}
    (h : (c :: l).dropWhile p = c :: l) : p c = false := by
  by_contra hc
  rw [Bool.not_eq_false] at hc
  rw [List.dropWhile_cons, hc] at h
  simp only [if_true] at h
  have hlen := length_dropWhile_le' p l
  rw [h] at hlen
  simp at hlen

theorem dropWhile_fix_append (p : Char → Bool) (l m : List Char)
    (hl : l.dropWhile p = l) (hm : m.dropWhile p = m) :
    (l ++ m).dropWhile p = l ++ m := by
  cases l with
  | nil => simpa using hm
  | cons c r =>
    have hc : p c = false := dropWhile_fix_head hl
    rw [List.cons_append, List.dropWhile_cons, hc]
    simp

theorem lastN_two_append (u : List Char) (a b : Char) :
    lastN 2 (u ++ [a, b]) = [a, b] := by
  unfold lastN
  have h : (u ++ [a, b]).length - 2 = u.length := by simp
  rw [h]
  exact List.drop_left u [a, b]

theorem dropLast_two_append (u : List Char) (a b : Char) :
    (u ++ [a, b]).dropLast.dropLast = u := by
  have h : u ++ [a, b] = (u ++ [a]) ++ [b] := by simp
  rw [h, List.dropLast_concat, List.dropLast_concat]

theorem stripBrackets_wrap (mid : List Char)
    (h1 : mid.dropWhile isBracketChar = mid)
    (h2 : mid.reverse.dropWhile isBracketChar = mid.reverse) :
    stripBrackets ('[' :: (mid ++ [']'])) = mid := by
  cases mid with
  | nil => decide
  | cons c cs =>
    have hc : isBracketChar c = false := dropWhile_fix_head h1
    unfold stripBrackets
    have hbl : isBracketChar '[' = true := by decide
    have hbr : isBracketChar ']' = true := by decide
    have hA : ('[' :: ((c :: cs) ++ [']'])).dropWhile isBracketChar = (c :: cs) ++ [']'] := by
      rw [List.cons_append, List.dropWhile_cons, hbl]
      simp only [if_true]
      rw [List.dropWhile_cons, hc]
      simp
    rw [hA]
    have hB : ((c :: cs) ++ [']']).reverse = ']' :: (c :: cs).reverse := by simp
    rw [hB, List.dropWhile_cons, hbr]
    simp only [if_true]
    rw [h2, List.reverse_reverse]

/-- C4: `parse_date` strips the enclosing brackets, rearranges the
fixed-width `DD/Mon/YYYY:HH:MM:SS` prefix into `YYYYMMDDHHMMSS` by fixed
character-offset slicing through the 12-entry month table, and returns
the suffix after position 21 (the offset) unmodified. -/
theorem C4_parse_date (d1 d2 m1 m2 m3 y1 y2 y3 y4 p1 p2 n1 n2 s1 s2 : Char)
    (off mm : List Char)
    (hm : assocGet MONTHS [m1, m2, m3] = some mm)
    (hd : isBracketChar d1 = false)
    (hoff : off.reverse.dropWhile isBracketChar = off.reverse) :
    parse_date ('[' ::
        (([d1, d2, '/', m1, m2, m3, '/', y1, y2, y3, y4, ':',
           p1, p2, ':', n1, n2, ':', s1, s2, ' '] ++ off) ++ [']'])) =
      some ([y1, y2, y3, y4] ++ mm ++ [d1, d2, p1, p2, n1, n2, s1, s2], off) := by
  have hfix1 : ([d1, d2, '/', m1, m2, m3, '/', y1, y2, y3, y4, ':',
      p1, p2, ':', n1, n2, ':', s1, s2, ' '] ++ off).dropWhile isBracketChar =
      [d1, d2, '/', m1, m2, m3, '/', y1, y2, y3, y4, ':',
      p1, p2, ':', n1, n2, ':', s1, s2, ' '] ++ off := by
    rw [List.cons_append, List.dropWhile_cons, hd]
    simp
  have hsp : (' ' :: [s2, s1, ':', n2, n1, ':', p2, p1, ':', y4, y3, y2, y1, '/',
      m3, m2, m1, '/', d2, d1]).dropWhile isBracketChar =
      ' ' :: [s2, s1, ':', n2, n1, ':', p2, p1, ':', y4, y3, y2, y1, '/',
      m3, m2, m1, '/', d2, d1] := by
    rw [List.dropWhile_cons]
    have : isBracketChar ' ' = false := by decide
    rw [this]
    simp
  have hrev : ([d1, d2, '/', m1, m2, m3, '/', y1, y2, y3, y4, ':',
      p1, p2, ':', n1, n2, ':', s1, s2, ' '] ++ off).reverse =
      off.reverse ++ (' ' :: [s2, s1, ':', n2, n1, ':', p2, p1, ':', y4, y3, y2, y1, '/',
      m3, m2, m1, '/', d2, d1]) := by
    simp
  have hfix2 : ([d1, d2, '/', m1, m2, m3, '/', y1, y2, y3, y4, ':',
      p1, p2, ':', n1, n2, ':', s1, s2, ' '] ++ off).reverse.dropWhile isBracketChar =
      ([d1, d2, '/', m1, m2, m3, '/', y1, y2, y3, y4, ':',
      p1, p2, ':', n1, n2, ':', s1, s2, ' '] ++ off).reverse := by
    rw [hrev]
    exact dropWhile_fix_append _ _ _ hoff hsp
  have hstrip := stripBrackets_wrap _ hfix1 hfix2
  unfold parse_date
  rw [hstrip]
  have hm' : assocGet MONTHS
      (slice ([d1, d2, '/', m1, m2, m3, '/', y1, y2, y3, y4, ':',
        p1, p2, ':', n1, n2, ':', s1, s2, ' '] ++ off) 3 6) = some mm := hm
  simp only [hm']
  show some ([y1, y2, y3, y4] ++ mm ++ [d1, d2] ++ [p1, p2] ++ [n1, n2] ++ [s1, s2], off) =
    some ([y1, y2, y3, y4] ++ mm ++ [d1, d2, p1, p2, n1, n2, s1, s2], off)
  simp [List.append_assoc]

/-- C4 witness: the spec's concrete example. -/
theorem C4_parse_date_witness :
    parse_date ("[05/Dec/2006:10:51:44 +0000]".toList) =
      some ("20061205105144".toList, "+0000".toList) := by
  have h := C4_parse_date '0' '5' 'D' 'e' 'c' '2' '0' '0' '6' '1' '0' '5' '1' '4' '4'
    ("+0000".toList) ("12".toList) (by decide) (by decide) (by decide)
  have e1 : ('[' :: ((['0', '5', '/', 'D', 'e', 'c', '/', '2', '0', '0', '6', ':',
      '1', '0', ':', '5', '1', ':', '4', '4', ' '] ++ "+0000".toList) ++ [']'])) =
      "[05/Dec/2006:10:51:44 +0000]".toList := by decide
  have e2 : (['2', '0', '0', '6'] ++ "12".toList ++
      ['0', '5', '1', '0', '5', '1', '4', '4'], "+0000".toList) =
      (("20061205105144".toList, "+0000".toList) : List Char × List Char) := by decide
  rw [e1, e2] at h
  exact h

/-- C5 counterexample: `alias` on the bracketed token `%{X}z`, whose
generic key `%{}z` is not in the table, returns the generic key `%{}z`
— a modified form — not the token unchanged. -/
theorem C5_counterexample :
    aliasChars ("%{X}z".toList) = "%{}z".toList ∧
    "%{}z".toList ≠ "%{X}z".toList := by decide

/-- C5 (amended): an unknown token is returned as the key `alias`
looked up: the token itself when it does not start with `%{`, and the
generic key `%{}c` (modifier discarded) when it does. -/
theorem C5_alias_unknown (name : List Char)
    (h : assocGet format_to_name (genericKey name) = none) :
    aliasChars name = genericKey name := by
  unfold genericKey at h ⊢
  unfold aliasChars
  by_cases hb : name.take 2 = ['%', '{']
  · rw [if_pos hb] at h ⊢
    simp only [h]
    rw [if_pos hb]
  · rw [if_neg hb] at h ⊢
    simp only [h]
    rw [if_neg hb]

/-- C5 witness: `%Z` is not in the table and is returned unchanged. -/
theorem C5_alias_unknown_witness :
    assocGet format_to_name (genericKey ("%Z".toList)) = none ∧
    aliasChars ("%Z".toList) = genericKey ("%Z".toList) :=
  ⟨by decide, C5_alias_unknown ("%Z".toList) (by decide)⟩

/-- C6 counterexample: in the modifier of `%{a.b}i` the dot is NOT
normalized to an underscore — only hyphens are — so the friendly name is
`header_a.b`, not `header_a_b`. -/
theorem C6_counterexample :
    aliasChars ("%{a.b}i".toList) = "header_a.b".toList ∧
    "header_a.b".toList ≠ "header_a_b".toList := by decide

/-- C6 (amended): for a bracketed token `%{X}c` whose generic key is in
the table, the friendly name is the base name, an underscore, and the
modifier with every HYPHEN (only) replaced by an underscore.  (`%{}t` is
not in the table, so the time-directive exception is vacuous.) -/
theorem C6_alias_bracketed (X : List Char) (c : Char) (base : List Char)
    (hb : assocGet format_to_name ['%', '{', '}', c] = some base) :
    aliasChars (('%' :: '{' :: X) ++ ['}', c]) =
      base ++ '_' :: X.map (fun ch => if ch = '-' then '_' else ch) := by
  have hc : c ≠ 't' := by
    intro hct
    subst hct
    have hn : assocGet format_to_name ['%', '{', '}', 't'] = none := by decide
    rw [hn] at hb
    exact Option.noConfusion hb
  unfold aliasChars
  have htake : (('%' :: '{' :: X) ++ ['}', c]).take 2 = ['%', '{'] := by
    simp [List.take]
  rw [if_pos htake]
  have hlen : (('%' :: '{' :: X) ++ ['}', c]).length - 4 = X.length := by simp
  have hdrop : (('%' :: '{' :: X) ++ ['}', c]).drop 2 = X ++ ['}', c] := by simp
  have hsplit : ('%' :: '{' :: X) ++ ['}', c] = (('%' :: '{' :: X) ++ ['}']) ++ [c] := by simp
  have hlast : lastN 1 (('%' :: '{' :: X) ++ ['}', c]) = [c] := by
    unfold lastN
    rw [hsplit]
    have hl1 : ((('%' :: '{' :: X) ++ ['}']) ++ [c]).length - 1 =
        (('%' :: '{' :: X) ++ ['}']).length := by simp
    rw [hl1, List.drop_left]
  simp only [hlen, hdrop, hlast]
  have hkey : ¬ ((['%', '{', '}'] ++ [c] : List Char) = ['%', '{', '}', 't']) := by
    simp [hc]
  rw [if_neg hkey]
  have hb' : assocGet format_to_name (['%', '{', '}'] ++ [c]) = some base := hb
  simp only [hb', List.take_left, List.map_cons]
  have hu : (if ('_' : Char) = '-' then ('_' : Char) else '_') = '_' := by decide
  rw [hu]

/-- C6 witness: `%{User-Agent}i` yields `header_User_Agent` (the claim's
own positive example, with the hyphen mapped to an underscore). -/
theorem C6_alias_bracketed_witness :
    aliasChars ("%{User-Agent}i".toList) = "header_User_Agent".toList := by
  have h := C6_alias_bracketed ("User-Agent".toList) 'i' ("header".toList) (by decide)
  have e1 : ('%' :: '{' :: "User-Agent".toList) ++ ['}', 'i'] =
      "%{User-Agent}i".toList := by decide
  have e2 : "header".toList ++
      '_' :: ("User-Agent".toList).map (fun ch => if ch = '-' then '_' else ch) =
      "header_User_Agent".toList := by decide
  rw [e1, e2] at h
  exact h

/-- C9 counterexample: a token carrying ONLY a trailing escaped-quote
marker is not stripped at all — the field name keeps the marker — because
both strip steps run only when the LEADING marker is present. -/
theorem C9_counterexample :
    namesOf ("%r\\\"".toList) false = ["%r\\\"".toList] ∧
    "%r\\\"".toList ≠ ['%', 'r'] := by decide

/-- C9 (amended): lenient one-sided stripping applies only to tokens
that BEGIN with the escaped-quote marker: such a token loses its leading
marker and, only if present, its trailing marker; a token with only a
trailing marker is left untouched. -/
theorem C9_strip_policy (u : List Char) :
    (processToken (('\\' :: '"' :: u) ++ ['\\', '"']) = u) ∧
    (lastN 2 u ≠ ['\\', '"'] → lastN 3 u ≠ ['\\', '"', '\n'] →
      processToken ('\\' :: '"' :: u) = u) ∧
    (startsEsc (u ++ ['\\', '"']) = false →
      processToken (u ++ ['\\', '"']) = u ++ ['\\', '"']) := by
  refine ⟨?_, ?_, ?_⟩
  · show rstripEsc (u ++ ['\\', '"']) = u
    unfold rstripEsc
    rw [if_pos (lastN_two_append u '\\' '"')]
    exact dropLast_two_append u '\\' '"'
  · intro ha hb
    show rstripEsc u = u
    unfold rstripEsc
    rw [if_neg ha, if_neg hb]
  · intro h
    unfold processToken
    rw [h]
    simp

/-- C9 witness: `\"%r` loses just its leading marker, `\"%r\"` both,
and `%r\"` (trailing-only) is untouched. -/
theorem C9_strip_policy_witness :
    processToken ("\\\"%r\\\"".toList) = ['%', 'r'] ∧
    processToken ("\\\"%r".toList) = ['%', 'r'] ∧
    processToken ("%r\\\"".toList) = "%r\\\"".toList := by
  refine ⟨?_, ?_, ?_⟩
  · have h := (C9_strip_policy ['%', 'r']).1
    have e1 : ('\\' :: '"' :: ['%', 'r']) ++ ['\\', '"'] = "\\\"%r\\\"".toList := by decide
    rw [e1] at h
    exact h
  · have h := (C9_strip_policy ['%', 'r']).2.1 (by decide) (by decide)
    have e1 : ('\\' :: '"' :: ['%', 'r']) = "\\\"%r".toList := by decide
    rw [e1] at h
    exact h
  · have h := (C9_strip_policy ['%', 'r']).2.2 (by decide)
    have e1 : ['%', 'r'] ++ ['\\', '"'] = "%r\\\"".toList := by decide
    rw [e1] at h
    exact h

/-- C10: the default subexpression accepts the empty string, so
`%a %b %c` parses the line `a  b` (two consecutive spaces), mapping `%b`
to the empty string instead of failing. -/
theorem C10_empty_capture :
    parse ("%a %b %c".toList) false ("a  b".toList) =
      ParseResult.ok [(['%', 'a'], ['a']), (['%', 'b'], []), (['%', 'c'], ['b'])] := by
  decide

/-- C8 counterexample: the time subexpression captures through a space,
so the format `%t` parses the line `[a b]`, which has two space-delimited
segments while the pattern expects one element — no ParseError. -/
theorem C8_counterexample :
    parse ("%t".toList) false ("[a b]".toList) =
      ParseResult.ok [(['%', 't'], "[a b]".toList)] ∧
    (splitOnSpace (pyStrip ("[a b]".toList))).length ≠
      (namesOf ("%t".toList) false).length := by decide

theorem tokenElem_pattern_eq (t : List Char) :
    elemPattern (tokenElem t) = specSubexprChoice t := by
  simp only [tokenElem, specSubexprChoice]
  by_cases hq : startsEsc t = true
  · by_cases hr : processToken t = ['%', 'r'] ∨ containsRefUA (processToken t) = true
    · simp [hq, hr, elemPattern]
    · simp [hq, hr, elemPattern]
  · by_cases ht : timeMatch (processToken t) = true
    · simp [hq, ht, elemPattern]
    · by_cases hu : processToken t = ['%', 'U']
      · simp [hq, ht, hu, elemPattern, (by decide : timeMatch ['%', 'U'] = false)]
      · simp [hq, ht, hu, elemPattern]

/-- C1: for every whitespace-delimited token of the format string, the
compiler's subexpression agrees with the claim's first-match-wins
precedence: (1) escaped-quoted and `%r`/Referer/User-Agent, (2)
escaped-quoted otherwise, (3) unquoted time directive, (4) unquoted
`%U`, (5) default non-whitespace run. -/
theorem C1_subexpr_precedence (fmt : List Char) :
    (elemsOf fmt).map elemPattern = (tokensOf fmt).map specSubexprChoice := by
  unfold elemsOf
  induction tokensOf fmt with
  | nil => rfl
  | cons t ts ih => simp only [List.map_cons, ih, tokenElem_pattern_eq]

theorem recGet_recSet (r : List (List Char × List Char)) (k v k' : List Char) :
    recGet (recSet r k v) k' = if k = k' then some v else recGet r k' := by
  induction r with
  | nil => simp [recSet, recGet]
  | cons kv rest ih =>
    obtain ⟨k0, v0⟩ := kv
    by_cases h0 : k0 = k
    · subst h0
      by_cases h1 : k0 = k'
      · subst h1
        simp [recSet, recGet]
      · simp [recSet, recGet, h1]
    · by_cases h1 : k0 = k'
      · subst h1
        have h2 : ¬ (k = k0) := fun hh => h0 hh.symm
        simp [recSet, recGet, h0, h2]
      · simp [recSet, recGet, h0, h1, ih]

theorem recGet_append_some {l1 : List (List Char × List Char)}
    (l2 : List (List Char × List Char)) {k v : List Char}
    (h : recGet l1 k = some v) : recGet (l1 ++ l2) k = some v := by
  induction l1 with
  | nil => simp [recGet] at h
  | cons kv rest ih =>
    obtain ⟨k0, v0⟩ := kv
    rw [List.cons_append]
    simp only [recGet] at h ⊢
    by_cases h0 : k0 = k
    · simpa [h0] using h
    · simp only [h0, if_false] at h ⊢
      exact ih h

theorem recGet_append_none {l1 : List (List Char × List Char)}
    (l2 : List (List Char × List Char)) {k : List Char}
    (h : recGet l1 k = none) : recGet (l1 ++ l2) k = recGet l2 k := by
  induction l1 with
  | nil => simp
  | cons kv rest ih =>
    obtain ⟨k0, v0⟩ := kv
    rw [List.cons_append]
    simp only [recGet] at h ⊢
    by_cases h0 : k0 = k
    · simp [h0] at h
    · simp only [h0, if_false] at h ⊢
      exact ih h

theorem recGet_foldl (pairs acc : List (List Char × List Char)) (k : List Char) :
    recGet (pairs.foldl (fun r kv => recSet r kv.1 kv.2) acc) k =
      match recGet pairs.reverse k with
      | some v => some v
      | none => recGet acc k := by
  induction pairs generalizing acc with
  | nil => simp [recGet]
  | cons p ps ih =>
    rw [List.foldl_cons, ih (recSet acc p.1 p.2), List.reverse_cons]
    cases hps : recGet ps.reverse k with
    | some v =>
      rw [recGet_append_some [p] hps]
    | none =>
      rw [recGet_append_none [p] hps]
      simp only [recGet_recSet, recGet]
      by_cases hp : p.1 = k
      · simp [hp]
      · simp [hp]

theorem recGet_buildRecord (pairs : List (List Char × List Char)) (k : List Char) :
    recGet (buildRecord pairs) k = recGet pairs.reverse k := by
  unfold buildRecord
  rw [recGet_foldl]
  cases hx : recGet pairs.reverse k with
  | none => simp [recGet]
  | some v => rfl

/-- C2: `parse` fails with the error carrying the trimmed line and the
compiled pattern exactly when the trimmed line does not match; on a
match it returns the record zipping names with groups positionally, and
a repeated name resolves to its LAST capture (last-write-wins). -/
theorem C2_parse_contract (fmt line : List Char) (friendly : Bool) :
    (matchElems (elemsOf fmt) (pyStrip line) = none →
      parse fmt friendly line = ParseResult.err (pyStrip line) (patternOf fmt)) ∧
    (∀ gs, matchElems (elemsOf fmt) (pyStrip line) = some gs →
      parse fmt friendly line =
        ParseResult.ok (buildRecord ((namesOf fmt friendly).zip gs)) ∧
      ∀ k, recGet (buildRecord ((namesOf fmt friendly).zip gs)) k =
        recGet ((namesOf fmt friendly).zip gs).reverse k) := by
  refine ⟨?_, ?_⟩
  · intro h
    unfold parse
    simp only [h]
  · intro gs h
    refine ⟨?_, fun k => recGet_buildRecord _ _⟩
    unfold parse
    simp only [h]

/-- C2 witness: the duplicated format `%a %a` on line `x y` keeps the
LAST capture `y` under the single key `%a`. -/
theorem C2_parse_contract_witness :
    parse ("%a %a".toList) false ("x y".toList) =
      ParseResult.ok [(['%', 'a'], ['y'])] ∧
    recGet [(['%', 'a'], ['y'])] ['%', 'a'] = some ['y'] := by
  have h := (C2_parse_contract ("%a %a".toList) ("x y".toList) false).2
    [['x'], ['y']] (by decide)
  refine ⟨?_, by decide⟩
  rw [h.1]
  decide

theorem capCount_append (l1 l2 : List Char) (h : l1.getLast? ≠ some '(') :
    capCount (l1 ++ l2) = capCount l1 + capCount l2 := by
  induction l1 with
  | nil => simp [capCount]
  | cons c rest ih =>
    cases rest with
    | nil =>
      have hc : c ≠ '(' := by
        intro hcc
        subst hcc
        exact h rfl
      simp [capCount, hc]
    | cons c2 rest2 =>
      have h2 : (c2 :: rest2).getLast? ≠ some '(' := by
        rwa [List.getLast?_cons_cons] at h
      have ihh := ih h2
      simp only [List.cons_append] at ihh ⊢
      simp only [capCount, List.head?_cons] at ihh ⊢
      omega

theorem elemPattern_caps (e : Elem) :
    capCount (elemPattern e) = 1 ∧ (elemPattern e).getLast? ≠ some '(' ∧
      elemPattern e ≠ [] := by
  cases e <;> exact ⟨by decide, by decide, by decide⟩

theorem joinSpace_facts (ps : List (List Char))
    (h : ∀ p ∈ ps, capCount p = 1 ∧ p.getLast? ≠ some '(' ∧ p ≠ []) :
    capCount (joinSpace ps) = ps.length ∧
    (ps ≠ [] → joinSpace ps ≠ [] ∧ (joinSpace ps).getLast? ≠ some '(') := by
  induction ps with
  | nil => simp [joinSpace, capCount]
  | cons p ps ih =>
    cases ps with
    | nil =>
      have hp := h p (List.mem_cons_self p [])
      exact ⟨hp.1, fun _ => ⟨hp.2.2, hp.2.1⟩⟩
    | cons q qs =>
      have hp := h p (by simp)
      obtain ⟨ihc, ihn⟩ := ih (fun r hr => h r (List.mem_cons_of_mem p hr))
      have hne := ihn (by simp)
      have hj : joinSpace (p :: q :: qs) = p ++ ' ' :: joinSpace (q :: qs) := rfl
      refine ⟨?_, fun _ => ⟨?_, ?_⟩⟩
      · rw [hj, capCount_append _ _ hp.2.1]
        have hsp : ¬ ((' ' : Char) = '(' ∧
            ((joinSpace (q :: qs)).head? ≠ some '?')) := by
          intro hcon
          exact absurd hcon.1 (by decide)
        rw [capCount, if_neg hsp, hp.1, ihc]
        simp only [List.length_cons]
        omega
      · rw [hj]
        simp
      · rw [hj, List.getLast?_append_of_ne_nil p (by simp)]
        cases hjq : joinSpace (q :: qs) with
        | nil => exact absurd hjq hne.1
        | cons j0 js =>
          rw [List.getLast?_cons_cons, ← hjq]
          exact hne.2

theorem splitOnSpace_ne_nil (s : List Char) : splitOnSpace s ≠ [] := by
  induction s with
  | nil => simp [splitOnSpace]
  | cons c rest ih =>
    by_cases hc : c = ' '
    · simp [splitOnSpace, hc]
    · simp only [splitOnSpace, if_neg hc]
      cases hsp : splitOnSpace rest with
      | nil => exact absurd hsp ih
      | cons t ts => simp

theorem firstSome_eq_some {α β : Type} {l : List α} {f : α → Option β} {b : β}
    (h : firstSome l f = some b) : ∃ a ∈ l, f a = some b := by
  induction l with
  | nil => simp [firstSome] at h
  | cons a as ih =>
    simp only [firstSome] at h
    cases hfa : f a with
    | some b' =>
      rw [hfa] at h
      exact ⟨a, List.mem_cons_self a as, by rw [hfa]; exact h⟩
    | none =>
      rw [hfa] at h
      obtain ⟨a', ha', hfa'⟩ := ih h
      exact ⟨a', List.mem_cons_of_mem a ha', hfa'⟩

theorem matchFuel_length : ∀ (es : List Elem) (fuel : Nat) (s : List Char)
    (gs : List (List Char)),
    matchFuel fuel es s = some gs → gs.length = es.length := by
  intro es
  induction es with
  | nil =>
    intro fuel s gs h
    simp only [matchFuel] at h
    by_cases hs : s.isEmpty = true
    · rw [if_pos hs] at h
      simp only [Option.some.injEq] at h
      subst h
      rfl
    · rw [if_neg hs] at h
      exact absurd h (by simp)
  | cons e es ih =>
    intro fuel s gs h
    cases fuel with
    | zero => simp [matchFuel] at h
    | succ f =>
      simp only [matchFuel] at h
      obtain ⟨p, _, hfp⟩ := firstSome_eq_some h
      cases es with
      | nil =>
        have hfp' : (if p.2.isEmpty = true then some [p.1] else none) = some gs := hfp
        by_cases hpe : p.2.isEmpty = true
        · rw [if_pos hpe] at hfp'
          simp only [Option.some.injEq] at hfp'
          subst hfp'
          rfl
        · rw [if_neg hpe] at hfp'
          exact absurd hfp' (by simp)
      | cons e2 es2 =>
        cases hp2 : p.2 with
        | nil =>
          rw [hp2] at hfp
          have hfp' : (none : Option (List (List Char))) = some gs := hfp
          exact absurd hfp' (by simp)
        | cons c r =>
          rw [hp2] at hfp
          have hfp' : (if c = ' ' then
              (matchFuel f (e2 :: es2) r).map (fun gs => p.1 :: gs)
              else none) = some gs := hfp
          by_cases hc : c = ' '
          · rw [if_pos hc] at hfp'
            obtain ⟨gs', hgs', hcons⟩ := Option.map_eq_some'.mp hfp'
            have := ih f r gs' hgs'
            rw [← hcons]
            simp [this]
          · rw [if_neg hc] at hfp'
            exact absurd hfp' (by simp)

theorem capCount_patternOf (fmt : List Char) :
    capCount (patternOf fmt) = (tokensOf fmt).length := by
  unfold patternOf
  have hall : ∀ p ∈ (elemsOf fmt).map elemPattern,
      capCount p = 1 ∧ p.getLast? ≠ some '(' ∧ p ≠ [] := by
    intro p hp
    obtain ⟨e, _, rfl⟩ := List.mem_map.mp hp
    exact elemPattern_caps e
  obtain ⟨hjc, hjn⟩ := joinSpace_facts _ hall
  have hne : (elemsOf fmt).map elemPattern ≠ [] := by
    unfold elemsOf tokensOf
    simp only [ne_eq, List.map_eq_nil_iff]
    exact splitOnSpace_ne_nil _
  obtain ⟨hjne, hjl⟩ := hjn hne
  have hlast : (('^' : Char) :: joinSpace ((elemsOf fmt).map elemPattern)).getLast? ≠
      some '(' := by
    cases hjq : joinSpace ((elemsOf fmt).map elemPattern) with
    | nil => exact absurd hjq hjne
    | cons j0 js =>
      rw [List.getLast?_cons_cons, ← hjq]
      exact hjl
  rw [capCount_append _ _ hlast]
  have hdol : capCount ['$'] = 0 := by decide
  have hcar : ¬ (('^' : Char) = '(' ∧
      ((joinSpace ((elemsOf fmt).map elemPattern)).head? ≠ some '?')) := by
    intro hcon
    exact absurd hcon.1 (by decide)
  rw [hdol, capCount, if_neg hcar, hjc]
  unfold elemsOf
  simp

/-- C3: the compiled field-name list has exactly one name per
whitespace-delimited element of the (normalised) format string, the
assembled pattern string has exactly one capturing group per name, and
every successful match yields exactly one captured group per name. -/
theorem C3_compiled_shape (fmt : List Char) (friendly : Bool) :
    (namesOf fmt friendly).length = (tokensOf fmt).length ∧
    capCount (patternOf fmt) = (namesOf fmt friendly).length ∧
    (∀ s gs, matchElems (elemsOf fmt) s = some gs →
      gs.length = (namesOf fmt friendly).length) := by
  have hlen : (namesOf fmt friendly).length = (tokensOf fmt).length := by
    unfold namesOf
    simp
  refine ⟨hlen, ?_, ?_⟩
  · rw [capCount_patternOf, hlen]
  · intro s gs h
    rw [hlen]
    rw [matchFuel_length (elemsOf fmt) _ s gs h]
    unfold elemsOf
    simp

/-- C3 witness: a two-element format, a matching line, and its two
captured groups. -/
theorem C3_compiled_shape_witness :
    matchElems (elemsOf ("%h %u".toList)) ("x y".toList) = some [['x'], ['y']] ∧
    ([['x'], ['y']] : List (List Char)).length =
      (namesOf ("%h %u".toList) false).length :=
  ⟨by decide, (C3_compiled_shape ("%h %u".toList) false).2.2 ("x y".toList)
    [['x'], ['y']] (by decide)⟩

set_option maxRecDepth 40000 in
/-- C7 counterexample: two 100-token formats with DIFFERENT assembled
patterns both trip Python 2's group limit, and construction raises the
IDENTICAL error payload — the fixed engine diagnostic, which does not
even contain either pattern — so the raised error cannot carry the
offending pattern as the claim states. -/
theorem C7_counterexample :
    parserInit (joinSpace (List.replicate 100 ("%h".toList))) false =
      CompileResult.err groupLimitDiag ∧
    parserInit (joinSpace (List.replicate 99 ("%h".toList) ++ [("%U".toList)])) false =
      CompileResult.err groupLimitDiag ∧
    patternOf (joinSpace (List.replicate 100 ("%h".toList))) ≠
      patternOf (joinSpace (List.replicate 99 ("%h".toList) ++ [("%U".toList)])) ∧
    occursIn (patternOf (joinSpace (List.replicate 100 ("%h".toList))))
      groupLimitDiag = false := by
  decide

/-- C7 (amended): the assembled pattern holds one capturing group per
token, and `re.compile` fails exactly when there are 100 or more of them
(Python 2's sre group limit); then construction raises the error
carrying ONLY the engine diagnostic — not the offending pattern — while
below the limit construction succeeds with the compiled names and
pattern. -/
theorem C7_compile_guard (fmt : List Char) (friendly : Bool) :
    capCount (patternOf fmt) = (tokensOf fmt).length ∧
    (100 ≤ (tokensOf fmt).length →
      parserInit fmt friendly = CompileResult.err groupLimitDiag) ∧
    ((tokensOf fmt).length < 100 →
      parserInit fmt friendly =
        CompileResult.ok (namesOf fmt friendly) (patternOf fmt)) := by
  have hcap := capCount_patternOf fmt
  refine ⟨hcap, ?_, ?_⟩
  · intro h
    unfold parserInit
    rw [hcap, if_pos h]
  · intro h
    unfold parserInit
    rw [hcap, if_neg (by omega)]

set_option maxRecDepth 40000 in
/-- C7 witness: a 100-token format trips the group limit; a two-token
format compiles. -/
theorem C7_compile_guard_witness :
    parserInit (joinSpace (List.replicate 100 ("%b".toList))) false =
      CompileResult.err groupLimitDiag ∧
    parserInit ("%h %u".toList) false =
      CompileResult.ok (namesOf ("%h %u".toList) false)
        (patternOf ("%h %u".toList)) :=
  ⟨(C7_compile_guard (joinSpace (List.replicate 100 ("%b".toList))) false).2.1
      (by decide),
   (C7_compile_guard ("%h %u".toList) false).2.2 (by decide)⟩

theorem mem_takeWhile_sat (p : Char → Bool) (l : List Char) :
    ∀ c ∈ l.takeWhile p, p c = true := by
  induction l with
  | nil =>
    intro c hc
    simp [List.takeWhile] at hc
  | cons a rest ih =>
    intro c hc
    rw [List.takeWhile_cons] at hc
    by_cases ha : p a
    · rw [if_pos ha] at hc
      rcases List.mem_cons.mp hc with h1 | h1
      · subst h1
        exact ha
      · exact ih c h1
    · rw [if_neg ha] at hc
      simp at hc

theorem plainCands_shape {s : List Char} {cap rest : List Char}
    (h : (cap, rest) ∈ plainCands s) :
    ∃ k, k ≤ (s.takeWhile (fun c => !isPySpace c)).length ∧
      cap = (s.takeWhile (fun c => !isPySpace c)).take k ∧
      rest = (s.takeWhile (fun c => !isPySpace c)).drop k ++
        s.dropWhile (fun c => !isPySpace c) := by
  simp only [plainCands, List.mem_map, List.mem_range] at h
  obtain ⟨i, _, heq⟩ := h
  injection heq with h1 h2
  exact ⟨(s.takeWhile (fun c => !isPySpace c)).length - i, Nat.sub_le _ _,
    h1.symm, h2.symm⟩

theorem splitOnSpace_noSpace (s : List Char) (h : ∀ c ∈ s, c ≠ ' ') :
    splitOnSpace s = [s] := by
  induction s with
  | nil => rfl
  | cons c rest ih =>
    have hc : c ≠ ' ' := h c (by simp)
    simp only [splitOnSpace, if_neg hc]
    rw [ih (fun x hx => h x (List.mem_cons_of_mem _ hx))]

theorem splitOnSpace_pre (pre rest : List Char) (h : ∀ c ∈ pre, c ≠ ' ') :
    splitOnSpace (pre ++ ' ' :: rest) = pre :: splitOnSpace rest := by
  induction pre with
  | nil => simp [splitOnSpace]
  | cons c pre ih =>
    have hc : c ≠ ' ' := h c (by simp)
    rw [List.cons_append]
    simp only [splitOnSpace, if_neg hc]
    rw [ih (fun x hx => h x (List.mem_cons_of_mem _ hx))]

theorem allPlain_segments : ∀ (es : List Elem), es ≠ [] →
    (∀ e ∈ es, e = Elem.plain) → ∀ (fuel : Nat) (s : List Char)
    (gs : List (List Char)),
    matchFuel fuel es s = some gs → (splitOnSpace s).length = es.length := by
  intro es
  induction es with
  | nil =>
    intro h
    exact absurd rfl h
  | cons e es ih =>
    intro _ hall fuel s gs h
    have he : e = Elem.plain := hall e (by simp)
    subst he
    cases fuel with
    | zero => simp [matchFuel] at h
    | succ f =>
      simp only [matchFuel] at h
      obtain ⟨p, hp, hfp⟩ := firstSome_eq_some h
      have hp' : (p.1, p.2) ∈ plainCands s := by simpa using hp
      obtain ⟨k, hk, hcap, hrest⟩ := plainCands_shape hp'
      have hrun : ∀ c ∈ s.takeWhile (fun c => !isPySpace c), c ≠ ' ' := by
        intro c hc hcc
        subst hcc
        have hsat := mem_takeWhile_sat _ _ _ hc
        simp [isPySpace] at hsat
      have hdecomp : s = s.takeWhile (fun c => !isPySpace c) ++
          s.dropWhile (fun c => !isPySpace c) :=
        (List.takeWhile_append_dropWhile (fun c => !isPySpace c) s).symm
      cases es with
      | nil =>
        have hfp' : (if p.2.isEmpty = true then some [p.1] else none) = some gs := hfp
        by_cases hpe : p.2.isEmpty = true
        · have hp2 : p.2 = [] := by
            cases hx : p.2 with
            | nil => rfl
            | cons a b =>
              rw [hx] at hpe
              simp [List.isEmpty] at hpe
          rw [hrest] at hp2
          obtain ⟨hdk, hda⟩ := List.append_eq_nil.mp hp2
          have hs_run : s = s.takeWhile (fun c => !isPySpace c) := by
            conv_lhs => rw [hdecomp]
            rw [hda, List.append_nil]
          rw [splitOnSpace_noSpace s (fun c hc => hrun c (hs_run ▸ hc))]
          rfl
        · rw [if_neg hpe] at hfp'
          exact absurd hfp' (by simp)
      | cons e2 es2 =>
        cases hp2 : p.2 with
        | nil =>
          rw [hp2] at hfp
          have hfp' : (none : Option (List (List Char))) = some gs := hfp
          exact absurd hfp' (by simp)
        | cons c r =>
          rw [hp2] at hfp
          have hfp' : (if c = ' ' then
              (matchFuel f (e2 :: es2) r).map (fun gs => p.1 :: gs)
              else none) = some gs := hfp
          by_cases hc : c = ' '
          · rw [if_pos hc] at hfp'
            obtain ⟨gs', hgs', -⟩ := Option.map_eq_some'.mp hfp'
            have hck : (s.takeWhile (fun c => !isPySpace c)).drop k ++
                s.dropWhile (fun c => !isPySpace c) = c :: r := by
              rw [← hrest, hp2]
            have hdk : (s.takeWhile (fun c => !isPySpace c)).drop k = [] := by
              cases hdd : (s.takeWhile (fun c => !isPySpace c)).drop k with
              | nil => rfl
              | cons c0 cs0 =>
                have hc0 : c0 ∈ s.takeWhile (fun c => !isPySpace c) :=
                  List.drop_subset _ _ (by rw [hdd]; exact List.mem_cons_self _ _)
                rw [hdd] at hck
                have : c0 = c := by
                  have := congrArg List.head? hck
                  simpa using this
                exact absurd (this.trans hc) (hrun c0 hc0)
            have hafter : s.dropWhile (fun c => !isPySpace c) = ' ' :: r := by
              rw [hdk, List.nil_append] at hck
              rw [hck, hc]
            have hs : s = s.takeWhile (fun c => !isPySpace c) ++ ' ' :: r := by
              conv_lhs => rw [hdecomp]
              rw [hafter]
            rw [hs, splitOnSpace_pre _ _ hrun]
            have hi := ih (by simp) (fun x hx => hall x (List.mem_cons_of_mem _ hx))
              f r gs' hgs'
            simp [hi]
          · rw [if_neg hc] at hfp'
            exact absurd hfp' (by simp)

/-- C8 (amended): restricted to formats all of whose elements compile to
the default non-whitespace subexpression, a line whose space-delimited
segment count (after trimming) differs from the field count always fails
with the ParseError carrying the trimmed line and the pattern. The
restriction is necessary: quoted, time-bracket and `%U` subexpressions
can capture through spaces (see the counterexample). -/
theorem C8_segment_mismatch (fmt line : List Char) (friendly : Bool)
    (hall : ∀ e ∈ elemsOf fmt, e = Elem.plain)
    (hlen : (splitOnSpace (pyStrip line)).length ≠ (namesOf fmt friendly).length) :
    parse fmt friendly line = ParseResult.err (pyStrip line) (patternOf fmt) := by
  unfold parse
  cases hm : matchElems (elemsOf fmt) (pyStrip line) with
  | none => simp only [hm]
  | some gs =>
    exfalso
    apply hlen
    have hne : elemsOf fmt ≠ [] := by
      unfold elemsOf tokensOf
      simp only [ne_eq, List.map_eq_nil_iff]
      exact splitOnSpace_ne_nil _
    rw [allPlain_segments (elemsOf fmt) hne hall _ _ _ hm]
    unfold elemsOf namesOf
    simp

/-- C8 witness: a three-segment line against a two-field all-default
format raises the ParseError. -/
theorem C8_segment_mismatch_witness :
    parse ("%h %u".toList) false ("a b c".toList) =
      ParseResult.err (pyStrip ("a b c".toList)) (patternOf ("%h %u".toList)) :=
  C8_segment_mismatch ("%h %u".toList) ("a b c".toList) false (by decide) (by decide)

end Apachelog
